import Mathlib

/-!
Verification of the etcdhosts CoreDNS plugin (repository etcdhosts/etcdhosts).

This file gives a shallow embedding, in Lean 4, of the parts of the Go
source that the frozen claims are about:

* `internal/hosts/wildcard.go` — wildcard matching and best-pattern selection;
* `internal/hosts` store — `Store.lookupWithWildcard` and friends;
* `internal/loadbalance` — `WeightedBalancer.Select` and `weightedSelect`;
* the health-check cache — `Cache.Get` / `Cache.Update` with hysteresis;
* `internal/etcd/storage.go` — single-key `Watch` event construction, and the
  synchronizer loop body of `watchEtcd` in `setup.go`;
* `handler.go` — `ServeDNS`, `filterAndBalance`, `getTTL`,
  `otherRecordsExist` and the record builders.

Modelling conventions:

* Go strings are `List Char` (`Str`); Go byte slices are `List Nat`.
* Go `nil` slices and empty slices are both `[]` (Lean lists), except for
  `[]byte` fields where the code distinguishes `nil` from non-`nil`
  (`WatchEvent.Data`), which become `Option (List Nat)` with `none` = `nil`.
* `rand.IntN n` is modelled as `seed % n` for an adversarially chosen
  `seed : Nat`; a consumed stream of such seeds is passed explicitly, so
  "no RNG draw happens" is expressible as "the stream is returned intact".
* Machine integers: Go `int` becomes `Int`, Go `uint32` becomes `Nat`.
  No arithmetic in the embedded code can overflow at the values the claims
  quantify over, except for the `1 << 30` exact-match score in
  `matchScore`, which is kept literally as `1073741824 : Int`.
* External collaborators (the CoreDNS framework's zone matcher,
  `fall.F.Through`, and `dnsutil.ExtractAddressFromReverse`) are modelled
  as opaque function parameters/fields, exactly as the spec treats them
  (collaborator interfaces, §6).
-/

/-- Go strings are modelled as lists of characters. -/
abbrev Str : Type := List Char

/-- Helper to write concrete `Str` values from string literals. -/
def s2l (s : String) : Str := s.data

/-- Model of Go `strings.ToLower` (ASCII range, which is all that DNS names
use; Lean's `Char.toLower` lowers exactly the basic latin letters). -/
def strToLower (s : Str) : Str := s.map Char.toLower

namespace hosts

/-- Body of `wildcardMatch` after the two `strings.ToLower` calls
(`internal/hosts/wildcard.go`): exact equality, else the pattern must start
with `"*."`; its tail `pattern[1:]` must be a suffix of the name and the
remaining name head `name[:len(name)-len(suffix)]` must contain no dot. -/
def wildcardCore (pattern name : Str) : Bool :=
  if pattern = name then true
  else if ¬ (['*', '.'].isPrefixOf pattern) then false
  else
    let suf := pattern.drop 1
    if ¬ (suf.isSuffixOf name) then false
    else !((name.take (name.length - suf.length)).contains '.')

/-- `wildcardMatch` from `internal/hosts/wildcard.go`: lowercases both
arguments, then runs the matching body. -/
def wildcardMatch (pattern name : Str) : Bool :=
  wildcardCore (strToLower pattern) (strToLower name)

/-- `isWildcard` from `internal/hosts/wildcard.go`. -/
def isWildcard (pattern : Str) : Bool :=
  ['*', '.'].isPrefixOf pattern

/-- `matchScore` from `internal/hosts/wildcard.go`: an exact match scores
`1 << 30`, a wildcard match scores the pattern length. -/
def matchScore (pattern name : Str) : Int :=
  if pattern = name then 1073741824
  else pattern.length

/-- The loop of `selectBestMatch`: iterate over the patterns carrying
`bestMatch`/`bestScore`, replacing them whenever `score > bestScore`. -/
def selectBestGo : List Str → Str → Str → Int → Str
  | [], _, best, _ => best
  | p :: rest, name, best, bestScore =>
    let lp := strToLower p
    if ¬ wildcardMatch lp name then selectBestGo rest name best bestScore
    else
      let score := matchScore lp name
      if bestScore < score then selectBestGo rest name lp score
      else selectBestGo rest name best bestScore

/-- `selectBestMatch` from `internal/hosts/wildcard.go`: lowercases the
name, then scans the patterns starting from `bestMatch = ""`,
`bestScore = -1`. -/
def selectBestMatch (patterns : List Str) (name : Str) : Str :=
  selectBestGo patterns (strToLower name) [] (-1)

end hosts

/-- IP addresses are carried around opaquely by the code under verification
(`net.IP` values); health keys and the reverse map use their textual form
`ip.String()`. We model an IP directly by that canonical text. -/
abbrev IP : Type := List Char

namespace hosts

/-- `CheckType` from the client-go data model re-exported by
`internal/hosts/record.go`. -/
inductive CheckType where
  | tcp
  | http
  | https
  | icmp
deriving DecidableEq, Repr

/-- `Health` from the client-go data model. -/
structure Health where
  type : CheckType
  port : Int
  path : Str
deriving DecidableEq, Repr

/-- `Entry` from the client-go data model (`IP`, `TTL uint32`,
`Weight int`, `Health *Health`). -/
structure Entry where
  IP : IP
  TTL : Nat
  Weight : Int
  Health : Option Health
deriving DecidableEq, Repr

instance : Inhabited Entry := ⟨⟨[], 0, 0, none⟩⟩

/-- A Go `map[string][]Entry` modelled as its key/value pairs in some
iteration order (keys unique in any map built by `Store.Update`). -/
abbrev EntryMap : Type := List (Str × List Entry)

/-- Go map indexing `m[k]` (with "present" flag via `Option`). -/
def mapGet (m : EntryMap) (k : Str) : Option (List Entry) :=
  (m.find? (fun kv => kv.1 = k)).map (·.2)

/-- The `Store` snapshot: the three lookup maps of `internal/hosts`
(`name4`, `name6`, `addr`). The `records` list (used only by `Len`) is
omitted, as no claim mentions it. -/
structure Store where
  name4 : EntryMap
  name6 : EntryMap
  addr : List (Str × List Str)
deriving Repr

/-- `Store.lookupWithWildcard`: exact map hit first; otherwise collect the
wildcard patterns among the map keys that match, pick the best one with
`selectBestMatch`, and return its entries (the Go `copy` calls are
value-semantics no-ops here). -/
def lookupWithWildcard (m : EntryMap) (hostname : Str) : List Entry :=
  let hostname := strToLower hostname
  match mapGet m hostname with
  | some entries => entries
  | none =>
    let patterns := (m.map (·.1)).filter (fun p => isWildcard p && wildcardMatch p hostname)
    if patterns = [] then []
    else
      let best := selectBestMatch patterns hostname
      if best = [] then []
      else (mapGet m best).getD []

/-- `Store.LookupV4WithWildcard`. -/
def Store.LookupV4WithWildcard (s : Store) (hostname : Str) : List Entry :=
  lookupWithWildcard s.name4 hostname

/-- `Store.LookupV6WithWildcard`. -/
def Store.LookupV6WithWildcard (s : Store) (hostname : Str) : List Entry :=
  lookupWithWildcard s.name6 hostname

/-- `Store.LookupAddr` (reverse lookup). The `net.ParseIP`/`String()`
normalisation round-trip is the identity on the canonical IP texts we model
(unparsable inputs, which return nil, are outside every claim). -/
def Store.LookupAddr (s : Store) (addr : Str) : List Str :=
  ((s.addr.find? (fun kv => kv.1 = addr)).map (·.2)).getD []

end hosts

namespace loadbalance

/-- `loadbalance.Entry`: `{IP net.IP, Weight int, Healthy bool}`. -/
structure Entry where
  IP : IP
  Weight : Int
  Healthy : Bool
deriving DecidableEq, Repr

instance : Inhabited Entry := ⟨⟨[], 0, false⟩⟩

/-- The total-weight loop of `weightedSelect`: sum of the positive weights. -/
def sumPosWeights : List Entry → Int
  | [] => 0
  | e :: rest => (if 0 < e.Weight then e.Weight else 0) + sumPosWeights rest

/-- The cumulative-sum scan of `weightedSelect`: skip non-positive weights,
accumulate positive ones, return the first index whose cumulative sum
exceeds `r` (`none` when the loop falls off the end). -/
def scanWeights : List Entry → Int → Int → Option Nat
  | [], _, _ => none
  | e :: rest, r, cum =>
    if 0 < e.Weight then
      if r < cum + e.Weight then some 0
      else (scanWeights rest r (cum + e.Weight)).map (· + 1)
    else (scanWeights rest r cum).map (· + 1)

/-- `weightedSelect` from `internal/loadbalance`: a single entry is index 0
without a draw; if all weights are non-positive, draw uniformly
(`rand.IntN(len(entries))`, modelled as `seed % len`); otherwise draw
`r = rand.IntN(totalWeight)` (modelled as `seed % totalWeight`) and scan
cumulative sums, with the unreachable fallback `len(entries)-1`. -/
def weightedSelect (entries : List Entry) (seed : Nat) : Nat :=
  if entries.length = 1 then 0
  else
    let totalWeight := sumPosWeights entries
    if totalWeight = 0 then seed % entries.length
    else
      let r : Int := (seed % totalWeight.toNat : Nat)
      match scanWeights entries r 0 with
      | some i => i
      | none => entries.length - 1

/-- Removal step of the `Select` loop: overwrite index `i` with the last
element, then truncate the last element
(`remaining[selected] = remaining[len-1]; remaining = remaining[:len-1]`). -/
def swapRemove (l : List Entry) (i : Nat) : List Entry :=
  (l.set i (l.getD (l.length - 1) default)).dropLast

/-- The shuffle loop of `Select` (`for len(remaining) > 0`): each round
removes one entry, so running it with fuel equal to the initial length is
exactly the Go loop (the fuel only makes the structural recursion
explicit). The RNG is an explicit list of draws; one draw is consumed per
`weightedSelect` call except when only one entry remains (in which case
`weightedSelect` short-circuits before drawing). Returns the produced IPs
together with the unconsumed draws. -/
def selectLoop : Nat → List Entry → List Nat → List IP × List Nat
  | 0, _, seeds => ([], seeds)
  | fuel + 1, remaining, seeds =>
    if remaining = [] then ([], seeds)
    else
      let sel := weightedSelect remaining (seeds.headD 0)
      let seeds' := if remaining.length = 1 then seeds else seeds.tail
      let rest := selectLoop fuel (swapRemove remaining sel) seeds'
      ((remaining.getD sel default).IP :: rest.1, rest.2)

/-- `WeightedBalancer.Select`: filter healthy entries, return `[]` when
none remain, the single IP directly (no draw) when one remains, and the
weighted shuffle otherwise. -/
def Select (entries : List Entry) (seeds : List Nat) : List IP × List Nat :=
  if entries = [] then ([], seeds)
  else
    let healthy := entries.filter (·.Healthy)
    if healthy = [] then ([], seeds)
    else if healthy.length = 1 then ([(healthy.headD default).IP], seeds)
    else selectLoop healthy.length healthy seeds

end loadbalance

namespace healthcheck

/-- `CacheEntry` of the health cache: healthy flag and the two hysteresis
counters. (`LastCheck`, which feeds only the diagnostic staleness check, is
outside every claim and not modelled.) -/
structure CacheEntry where
  healthy : Bool
  failures : Int
  successes : Int
deriving DecidableEq, Repr

/-- The map inside `Cache` (`map[string]*CacheEntry`), as a function from
keys to optional entries. -/
abbrev CacheMap : Type := Str → Option CacheEntry

/-- `NewCache` starts with an empty map. -/
def emptyCache : CacheMap := fun _ => none

/-- `Cache.Get`: `(healthy, found)`; an unknown key reads as
`(true, false)` — the optimistic default. -/
def cacheGet (m : CacheMap) (key : Str) : Bool × Bool :=
  match m key with
  | none => (true, false)
  | some e => (e.healthy, true)

/-- `Cache.IsHealthy` is the first component of `Cache.Get`. -/
def cacheIsHealthy (m : CacheMap) (key : Str) : Bool :=
  (cacheGet m key).1

/-- The entry created by `Cache.Update` for an unknown key:
`&CacheEntry{Healthy: true}` (counters zero). -/
def initialCacheEntry : CacheEntry := ⟨true, 0, 0⟩

/-- The state transition applied by `Cache.Update` to one entry: a success
resets `Failures`, increments `Successes` and sets healthy once
`Successes >= successBeforeUp`; a failure resets `Successes`, increments
`Failures` and clears healthy once `Failures >= failuresBeforeDown`. -/
def updateEntry (e : CacheEntry) (healthy : Bool) (fbd sbu : Int) : CacheEntry :=
  if healthy then
    let e' : CacheEntry := ⟨e.healthy, 0, e.successes + 1⟩
    if sbu ≤ e'.successes then { e' with healthy := true } else e'
  else
    let e' : CacheEntry := ⟨e.healthy, e.failures + 1, 0⟩
    if fbd ≤ e'.failures then { e' with healthy := false } else e'

/-- `Cache.Update`: fetch the entry (creating the initial healthy entry for
an unknown key), then apply the hysteresis transition. -/
def cacheUpdate (m : CacheMap) (key : Str) (healthy : Bool) (fbd sbu : Int) : CacheMap :=
  let e := (m key).getD initialCacheEntry
  fun k => if k = key then some (updateEntry e healthy fbd sbu) else m k

/-- Feeding a sequence of probe results for a single key into the cache,
one `Cache.Update` per result. -/
def cacheRunKey (m : CacheMap) (key : Str) (results : List Bool) (fbd sbu : Int) : CacheMap :=
  results.foldl (fun acc r => cacheUpdate acc key r fbd sbu) m

/-- `UnhealthyPolicy` from `internal/healthcheck`. -/
inductive UnhealthyPolicy where
  | PolicyReturnAll
  | PolicyReturnEmpty
  | PolicyFallthrough
deriving DecidableEq, Repr

/-- The slice of `Checker` that the handler consults: its health cache and
the configured unhealthy policy (`cfg.UnhealthyPolicy`). -/
structure Checker where
  cache : CacheMap
  policy : UnhealthyPolicy

/-- The cache key `fmt.Sprintf("%s:%s", hostname, ip.String())` used by
`Checker.IsHealthy`. -/
def healthKeyOf (hostname : Str) (ip : IP) : Str :=
  hostname ++ ':' :: ip

/-- `Checker.IsHealthy`. -/
def Checker.IsHealthy (c : Checker) (hostname : Str) (ip : IP) : Bool :=
  cacheIsHealthy c.cache (healthKeyOf hostname ip)

/-- `Checker.GetPolicy`. -/
def Checker.GetPolicy (c : Checker) : UnhealthyPolicy := c.policy

end healthcheck

namespace etcd

/-- The etcd event types relevant to the watch loop
(`clientv3.EventTypePut` / `clientv3.EventTypeDelete`). -/
inductive EventType where
  | put
  | delete
deriving DecidableEq, Repr

/-- One etcd event inside a watch response: its type and `ev.Kv.Value`. -/
structure EtcdEvent where
  type : EventType
  value : List Nat
deriving DecidableEq, Repr

/-- A non-error etcd watch response: its events and header revision. -/
structure WatchResp where
  events : List EtcdEvent
  revision : Int
deriving DecidableEq, Repr

/-- `WatchEvent` from `internal/etcd/storage.go` (error-free case):
`Data []byte` (`none` models a `nil` slice) and `Version int64`. -/
structure WatchEvent where
  data : Option (List Nat)
  version : Int
deriving DecidableEq, Repr

/-- The event constructed by `singleKeyStorage.Watch` for one etcd event:
delete events get `Data = nil`, others carry `ev.Kv.Value`. -/
def singleKeyEvent (rev : Int) (ev : EtcdEvent) : WatchEvent :=
  match ev.type with
  | .delete => { data := none, version := rev }
  | .put => { data := some ev.value, version := rev }

/-- `singleKeyStorage.Watch` forwards one `WatchEvent` per event of the
response (`for _, ev := range resp.Events`). -/
def singleKeyEvents (resp : WatchResp) : List WatchEvent :=
  resp.events.map (singleKeyEvent resp.revision)

/-- The data-selection step of the `watchEtcd` loop body in `setup.go` for
one non-error event: a non-nil `event.Data` is used directly; a nil
`event.Data` triggers a re-`Load` (whose result `loadData` is again `nil`
for an empty dataset). Returns (whether `Load` was called, the data that
is then published: `none` clears the store, `some d` is parsed and
published). -/
def syncStep (event : WatchEvent) (loadData : Option (List Nat)) :
    Bool × Option (List Nat) :=
  match event.data with
  | some d => (false, some d)
  | none => (true, loadData)

end etcd

namespace handler

open hosts loadbalance healthcheck

/-- DNS query types distinguished by `ServeDNS`. -/
inductive QType where
  | A
  | AAAA
  | PTR
  | OTHER
deriving DecidableEq, Repr

/-- Answer resource records as built by the `a`, `aaaa` and `ptr` helpers
of `handler.go`: name, TTL and payload. -/
inductive RR where
  | A (name : Str) (ttl : Nat) (ip : IP)
  | AAAA (name : Str) (ttl : Nat) (ip : IP)
  | PTR (name : Str) (ttl : Nat) (target : Str)
deriving DecidableEq, Repr

/-- The TTL field of a resource record. -/
def rrTTL : RR → Nat
  | .A _ ttl _ => ttl
  | .AAAA _ ttl _ => ttl
  | .PTR _ ttl _ => ttl

/-- `a(zone, ttl, ips)` from `handler.go`. -/
def aRecords (zone : Str) (ttl : Nat) (ips : List IP) : List RR :=
  ips.map (RR.A zone ttl)

/-- `aaaa(zone, ttl, ips)` from `handler.go`. -/
def aaaaRecords (zone : Str) (ttl : Nat) (ips : List IP) : List RR :=
  ips.map (RR.AAAA zone ttl)

/-- `dns.Fqdn` (external miekg/dns helper used by `ptr`): append a trailing
dot when absent. -/
def fqdn (s : Str) : Str :=
  if s.getLast? = some '.' then s else s ++ ['.']

/-- `ptr(zone, ttl, names)` from `handler.go`. -/
def ptrRecords (zone : Str) (ttl : Nat) (names : List Str) : List RR :=
  names.map (fun n => RR.PTR zone ttl (fqdn n))

/-- The `EtcdHosts` plugin state as `ServeDNS` consumes it.
`zoneMatch` models the framework call `plugin.Zones(e.Origins).Matches`
(true iff the matched zone is non-empty) and `fallThrough` models
`e.Fall.Through` — both are collaborator interfaces of the enclosing
CoreDNS framework. -/
structure EtcdHosts where
  zoneMatch : Str → Bool
  fallThrough : Str → Bool
  TTL : Nat
  store : Store
  checker : Option Checker

/-- `filterAndBalance` from `handler.go`: build the balancer entries by
consulting the checker (everything healthy when no checker is configured),
apply the unhealthy policy when every entry is unhealthy, then run the
weighted balancer. The RNG draw list is threaded through like in
`loadbalance.Select`. -/
def filterAndBalance (e : EtcdHosts) (hostname : Str) (entries : List hosts.Entry)
    (seeds : List Nat) : List IP × List Nat :=
  if entries = [] then ([], seeds)
  else
    let lbEntries : List loadbalance.Entry := entries.map (fun en =>
      let healthy := match e.checker with
        | none => true
        | some c => c.IsHealthy hostname en.IP
      ⟨en.IP, en.Weight, healthy⟩)
    let allUnhealthy := lbEntries.all (fun le => !le.Healthy)
    match e.checker with
    | none => Select lbEntries seeds
    | some c =>
      if allUnhealthy then
        match c.GetPolicy with
        | .PolicyReturnEmpty => ([], seeds)
        | .PolicyFallthrough => ([], seeds)
        | .PolicyReturnAll =>
          Select (lbEntries.map (fun le => { le with Healthy := true })) seeds
      else Select lbEntries seeds

/-- `getTTL` from `handler.go`: the first entry's TTL when the list is
non-empty and that TTL is set (> 0), else the zone default `e.TTL`. -/
def getTTL (e : EtcdHosts) (entries : List hosts.Entry) : Nat :=
  match entries with
  | [] => e.TTL
  | en :: _ => if 0 < en.TTL then en.TTL else e.TTL

/-- `otherRecordsExist` from `handler.go`. -/
def otherRecordsExist (e : EtcdHosts) (qname : Str) : Bool :=
  if 0 < (e.store.LookupV4WithWildcard qname).length then true
  else if 0 < (e.store.LookupV6WithWildcard qname).length then true
  else false

/-- The possible outcomes of `ServeDNS`: pass to the next plugin
(`plugin.NextOrFailure`), return `dns.RcodeServerFailure`, or write an
authoritative reply and return `dns.RcodeSuccess`. -/
inductive DnsResponse where
  | nextPlugin
  | servfail
  | success (answers : List RR)
deriving DecidableEq, Repr

/-- `ServeDNS` from `handler.go`. `revAddr` models the external
`dnsutil.ExtractAddressFromReverse`. The zone gate passes PTR queries
through; the PTR branch returns to the next plugin early when the reverse
lookup is empty; A/AAAA answers are built only when the balanced IP list is
non-empty; finally, an empty answer set with no records of either family
for the name yields fallthrough or SERVFAIL, and everything else writes a
successful reply. (Metrics calls are effect-free for the response and are
not modelled.) -/
def serveDNS (e : EtcdHosts) (revAddr : Str → Str) (qname : Str) (qtype : QType)
    (seeds : List Nat) : DnsResponse :=
  if e.zoneMatch qname = false ∧ qtype ≠ .PTR then .nextPlugin
  else if qtype = .PTR ∧ e.store.LookupAddr (revAddr qname) = [] then .nextPlugin
  else
    let answers : List RR :=
      match qtype with
      | .PTR => ptrRecords qname e.TTL (e.store.LookupAddr (revAddr qname))
      | .A =>
        let entries := e.store.LookupV4WithWildcard qname
        let ips := (filterAndBalance e qname entries seeds).1
        if 0 < ips.length then aRecords qname (getTTL e entries) ips else []
      | .AAAA =>
        let entries := e.store.LookupV6WithWildcard qname
        let ips := (filterAndBalance e qname entries seeds).1
        if 0 < ips.length then aaaaRecords qname (getTTL e entries) ips else []
      | .OTHER => []
    if answers.length = 0 ∧ otherRecordsExist e qname = false then
      if e.fallThrough qname then .nextPlugin else .servfail
    else .success answers

end handler

/-! ## Character-level facts about `strings.ToLower` -/

theorem char_toNat_ofNat_valid (n : Nat) (h : n.isValidChar) :
    (Char.ofNat n).toNat = n := by
  rw [Char.ofNat, dif_pos h]
  rfl

theorem char_toLower_eq (c : Char) :
    c.toLower = if c.toNat ≥ 65 ∧ c.toNat ≤ 90 then Char.ofNat (c.toNat + 32) else c := rfl

theorem char_toLower_idem (c : Char) : c.toLower.toLower = c.toLower := by
  by_cases h : c.toNat ≥ 65 ∧ c.toNat ≤ 90
  · have h1 : c.toLower = Char.ofNat (c.toNat + 32) := by
      rw [char_toLower_eq, if_pos h]
    have hv : (c.toNat + 32).isValidChar := Or.inl (by omega)
    have ht : (Char.ofNat (c.toNat + 32)).toNat = c.toNat + 32 :=
      char_toNat_ofNat_valid _ hv
    rw [h1, char_toLower_eq, if_neg]
    rw [ht]
    omega
  · have h1 : c.toLower = c := by
      rw [char_toLower_eq, if_neg h]
    rw [h1, h1]

theorem strToLower_idem (s : Str) : strToLower (strToLower s) = strToLower s := by
  simp only [strToLower, List.map_map]
  apply List.map_congr_left
  intro c _
  exact char_toLower_idem c

theorem strToLower_length (s : Str) : (strToLower s).length = s.length := by
  simp [strToLower]

/-! ## Concrete instances used by counterexamples and witnesses -/

/-- A one-entry store for `svc.example.com.` whose sole entry is marked
unhealthy in the health cache. -/
def c1Store : hosts.Store :=
  ⟨[(s2l "svc.example.com.", [⟨s2l "192.168.1.3", 0, 1, none⟩])], [], []⟩

/-- Health cache marking `svc.example.com.`/`192.168.1.3` unhealthy. -/
def c1Cache : healthcheck.CacheMap :=
  fun k => if k = s2l "svc.example.com.:192.168.1.3" then some ⟨false, 3, 0⟩ else none

/-- Handler under policy `return_empty` with fallthrough disabled. -/
def c1Handler : handler.EtcdHosts :=
  ⟨fun _ => true, fun _ => false, 3600, c1Store, some ⟨c1Cache, .PolicyReturnEmpty⟩⟩

/-- A store whose `api.example.com.` entries carry different TTL
overrides (60 and 3600). -/
def c4Store : hosts.Store :=
  ⟨[(s2l "api.example.com.",
     [⟨s2l "192.168.1.1", 60, 1, none⟩, ⟨s2l "192.168.1.2", 3600, 1, none⟩])], [], []⟩

/-- Handler with zone default TTL 300 and no health checker. -/
def c4Handler : handler.EtcdHosts :=
  ⟨fun _ => true, fun _ => false, 300, c4Store, none⟩

/-- Folding a sequence of probe results into one cache entry (the per-key
effect of successive `Cache.Update` calls). -/
def foldEntry (e : healthcheck.CacheEntry) (results : List Bool) (fbd sbu : Int) :
    healthcheck.CacheEntry :=
  results.foldl (fun acc r => healthcheck.updateEntry acc r fbd sbu) e

/-! ## Shared helper lemmas -/

/-- An all-unhealthy entry list under `return_empty` or `fallthrough`
makes `filterAndBalance` return no IPs and consume no draws. -/
theorem fab_all_unhealthy_empty (zm ft : Str → Bool) (ttl : Nat) (st : hosts.Store)
    (cache : healthcheck.CacheMap) (pol : healthcheck.UnhealthyPolicy)
    (hostname : Str) (entries : List hosts.Entry) (seeds : List Nat)
    (hpol : pol = .PolicyReturnEmpty ∨ pol = .PolicyFallthrough)
    (hall : ∀ en ∈ entries,
      healthcheck.cacheIsHealthy cache (healthcheck.healthKeyOf hostname en.IP) = false) :
    handler.filterAndBalance ⟨zm, ft, ttl, st, some ⟨cache, pol⟩⟩ hostname entries seeds
      = ([], seeds) := by
  by_cases hent : entries = []
  · simp [handler.filterAndBalance, hent]
  · have hAll : (entries.map (fun en =>
        (⟨en.IP, en.Weight,
          healthcheck.Checker.IsHealthy ⟨cache, pol⟩ hostname en.IP⟩ :
            loadbalance.Entry))).all (fun le => !le.Healthy) = true := by
      rw [List.all_eq_true]
      intro le hle
      rw [List.mem_map] at hle
      obtain ⟨en, hen, hmap⟩ := hle
      have := hall en hen
      simp only [← hmap, healthcheck.Checker.IsHealthy]
      simp [this]
    simp only [handler.filterAndBalance, if_neg hent]
    rw [if_pos hAll]
    rcases hpol with h | h <;> subst h <;> rfl

/-! ## C9 — optimistic default for unknown health keys -/

/-- C9: a key never updated in the health cache reads as healthy
(`Get` returns `(true, false)`), and the first `Update` for an unknown key
starts from the healthy zero-counter entry, so a single failure with
`failuresBeforeDown > 1` leaves the key healthy (the stored entry is then
`{healthy := true, failures := 1, successes := 0}`). -/
theorem cache_unknown_key_optimistic (key : Str) (fbd sbu : Int) (hfbd : 1 < fbd) :
    healthcheck.cacheGet healthcheck.emptyCache key = (true, false)
    ∧ healthcheck.cacheIsHealthy healthcheck.emptyCache key = true
    ∧ healthcheck.cacheUpdate healthcheck.emptyCache key false fbd sbu key =
        some ⟨true, 1, 0⟩
    ∧ healthcheck.cacheIsHealthy
        (healthcheck.cacheUpdate healthcheck.emptyCache key false fbd sbu) key = true := by
  have hupd : healthcheck.cacheUpdate healthcheck.emptyCache key false fbd sbu key =
      some ⟨true, 1, 0⟩ := by
    simp only [healthcheck.cacheUpdate, healthcheck.emptyCache, healthcheck.updateEntry,
      healthcheck.initialCacheEntry, Option.getD, if_pos rfl]
    norm_num
    omega
  refine ⟨rfl, rfl, hupd, ?_⟩
  simp [healthcheck.cacheIsHealthy, healthcheck.cacheGet, hupd]

/-- Witness for C9 at a concrete key and thresholds `fbd = 3`, `sbu = 1`. -/
theorem cache_unknown_key_optimistic_witness :
    healthcheck.cacheIsHealthy
      (healthcheck.cacheUpdate healthcheck.emptyCache (s2l "svc.example.com.:192.168.1.3")
        false 3 1) (s2l "svc.example.com.:192.168.1.3") = true :=
  (cache_unknown_key_optimistic (s2l "svc.example.com.:192.168.1.3") 3 1 (by norm_num)).2.2.2

/-! ## C3 — single-key watch delete events -/

/-- Counterexample to C3: the single-key `Watch` builds a delete event with
`Data = nil` (`none`), which is not the empty byte string, and the
synchronizer's handling of that event performs a re-`Load`
(first component `true`) instead of publishing directly. -/
theorem singleKey_delete_event_counterexample :
    (etcd.singleKeyEvent 7 ⟨.delete, [104, 105]⟩).data = none
    ∧ (etcd.singleKeyEvent 7 ⟨.delete, [104, 105]⟩).data ≠ some []
    ∧ (etcd.syncStep (etcd.singleKeyEvent 7 ⟨.delete, [104, 105]⟩) none).1 = true := by
  refine ⟨rfl, ?_, rfl⟩
  decide

/-- C3 as amended: the single-key watch emits one event per key change; a
key-delete event carries `nil` data; the synchronizer realizes a deletion
by re-`Load`ing on a nil-data event (publishing whatever `Load` returns),
while a data-bearing event is published directly without a re-`Load`. -/
theorem singleKey_watch_delete_behavior (resp : etcd.WatchResp) (loadData : Option (List Nat)) :
    (etcd.singleKeyEvents resp).length = resp.events.length
    ∧ (∀ ev ∈ resp.events, ev.type = .delete →
        etcd.singleKeyEvent resp.revision ev = ⟨none, resp.revision⟩)
    ∧ (∀ v : Int, etcd.syncStep ⟨none, v⟩ loadData = (true, loadData))
    ∧ (∀ (v : Int) (d : List Nat), etcd.syncStep ⟨some d, v⟩ loadData = (false, some d)) := by
  refine ⟨by simp [etcd.singleKeyEvents], ?_, fun v => rfl, fun v d => rfl⟩
  intro ev _ htype
  simp [etcd.singleKeyEvent, htype]

/-- Witness for C3's amended statement at a concrete one-event delete
response. -/
theorem singleKey_watch_delete_behavior_witness :
    etcd.singleKeyEvent 5 ⟨.delete, [104]⟩ = ⟨none, 5⟩ :=
  (singleKey_watch_delete_behavior ⟨[⟨.delete, [104]⟩], 5⟩ none).2.1
    ⟨.delete, [104]⟩ (by simp) rfl

/-! ## C10 — `return_empty` and `fallthrough` agree inside the handler -/

/-- C10: for a hostname whose entries are all unhealthy, `filterAndBalance`
returns the same (empty) IP list under `return_empty` as under
`fallthrough`. -/
theorem filterAndBalance_policy_equiv (zm ft : Str → Bool) (ttl : Nat) (st : hosts.Store)
    (cache : healthcheck.CacheMap) (hostname : Str) (entries : List hosts.Entry)
    (seeds : List Nat)
    (hall : ∀ en ∈ entries,
      healthcheck.cacheIsHealthy cache (healthcheck.healthKeyOf hostname en.IP) = false) :
    handler.filterAndBalance ⟨zm, ft, ttl, st, some ⟨cache, .PolicyReturnEmpty⟩⟩
        hostname entries seeds
      = handler.filterAndBalance ⟨zm, ft, ttl, st, some ⟨cache, .PolicyFallthrough⟩⟩
          hostname entries seeds
    ∧ (handler.filterAndBalance ⟨zm, ft, ttl, st, some ⟨cache, .PolicyReturnEmpty⟩⟩
        hostname entries seeds).1 = [] := by
  have h1 := fab_all_unhealthy_empty zm ft ttl st cache .PolicyReturnEmpty hostname entries
    seeds (Or.inl rfl) hall
  have h2 := fab_all_unhealthy_empty zm ft ttl st cache .PolicyFallthrough hostname entries
    seeds (Or.inr rfl) hall
  rw [h1, h2]
  exact ⟨rfl, rfl⟩

/-- Witness for C10 at a concrete one-entry store with that entry marked
unhealthy in the cache. -/
theorem filterAndBalance_policy_equiv_witness :
    handler.filterAndBalance
        ⟨fun _ => true, fun _ => false, 3600, ⟨[], [], []⟩,
          some ⟨fun k => if k = s2l "svc.example.com.:192.168.1.3" then
                  some ⟨false, 3, 0⟩ else none, .PolicyReturnEmpty⟩⟩
        (s2l "svc.example.com.") [⟨s2l "192.168.1.3", 0, 1, none⟩] [0]
      = handler.filterAndBalance
          ⟨fun _ => true, fun _ => false, 3600, ⟨[], [], []⟩,
            some ⟨fun k => if k = s2l "svc.example.com.:192.168.1.3" then
                    some ⟨false, 3, 0⟩ else none, .PolicyFallthrough⟩⟩
          (s2l "svc.example.com.") [⟨s2l "192.168.1.3", 0, 1, none⟩] [0] :=
  (filterAndBalance_policy_equiv (fun _ => true) (fun _ => false) 3600 ⟨[], [], []⟩
    (fun k => if k = s2l "svc.example.com.:192.168.1.3" then some ⟨false, 3, 0⟩ else none)
    (s2l "svc.example.com.") [⟨s2l "192.168.1.3", 0, 1, none⟩] [0]
    (by intro en hen; simp at hen; subst hen; decide)).1

/-! ## C7 — hysteresis of the health cache -/


theorem foldEntry_append (e : healthcheck.CacheEntry) (a b : List Bool) (fbd sbu : Int) :
    foldEntry e (a ++ b) fbd sbu = foldEntry (foldEntry e a fbd sbu) b fbd sbu := by
  simp [foldEntry, List.foldl_append]

theorem cacheRunKey_key (key : Str) (fbd sbu : Int) :
    ∀ (results : List Bool) (m : healthcheck.CacheMap), results ≠ [] →
      healthcheck.cacheRunKey m key results fbd sbu key =
        some (foldEntry ((m key).getD healthcheck.initialCacheEntry) results fbd sbu) := by
  intro results
  induction results with
  | nil => intro m hne; exact absurd rfl hne
  | cons r rest ih =>
    intro m _
    have hstep : healthcheck.cacheUpdate m key r fbd sbu key =
        some (healthcheck.updateEntry ((m key).getD healthcheck.initialCacheEntry) r fbd sbu) := by
      simp [healthcheck.cacheUpdate]
    by_cases hrest : rest = []
    · subst hrest
      simpa [healthcheck.cacheRunKey, foldEntry] using hstep
    · have : healthcheck.cacheRunKey m key (r :: rest) fbd sbu =
          healthcheck.cacheRunKey (healthcheck.cacheUpdate m key r fbd sbu) key rest fbd sbu := by
        simp [healthcheck.cacheRunKey]
      rw [this, ih _ hrest, hstep]
      simp [foldEntry]

theorem foldEntry_failure_run (fbd sbu : Int) :
    ∀ (k : Nat) (e : healthcheck.CacheEntry), 1 ≤ k →
      foldEntry e (List.replicate k false) fbd sbu =
        ⟨if fbd ≤ e.failures + k then false else e.healthy, e.failures + k, 0⟩ := by
  intro k
  induction k with
  | zero => intro e h; omega
  | succ n ih =>
    intro e _
    by_cases hn : n = 0
    · subst hn
      simp only [List.replicate, foldEntry, List.foldl_cons, List.foldl_nil]
      simp only [healthcheck.updateEntry, Bool.false_eq_true, if_false]
      split <;> simp_all
    · have hrep : List.replicate (n + 1) false = false :: List.replicate n false :=
        List.replicate_succ false n
      rw [hrep]
      have hstep : foldEntry e (false :: List.replicate n false) fbd sbu =
          foldEntry (healthcheck.updateEntry e false fbd sbu) (List.replicate n false) fbd sbu := by
        simp [foldEntry]
      rw [hstep, ih _ (by omega)]
      have hue : healthcheck.updateEntry e false fbd sbu =
          ⟨if fbd ≤ e.failures + 1 then false else e.healthy, e.failures + 1, 0⟩ := by
        simp only [healthcheck.updateEntry, Bool.false_eq_true, if_false]
        split <;> simp_all
      rw [hue]
      simp only []
      congr 1
      · split <;> split <;> simp_all <;> omega
      · push_cast
        omega

theorem foldEntry_success_run (fbd sbu : Int) :
    ∀ (k : Nat) (e : healthcheck.CacheEntry), 1 ≤ k →
      foldEntry e (List.replicate k true) fbd sbu =
        ⟨if sbu ≤ e.successes + k then true else e.healthy, 0, e.successes + k⟩ := by
  intro k
  induction k with
  | zero => intro e h; omega
  | succ n ih =>
    intro e _
    by_cases hn : n = 0
    · subst hn
      simp only [List.replicate, foldEntry, List.foldl_cons, List.foldl_nil]
      simp only [healthcheck.updateEntry, if_true]
      split <;> simp_all
    · have hrep : List.replicate (n + 1) true = true :: List.replicate n true :=
        List.replicate_succ true n
      rw [hrep]
      have hstep : foldEntry e (true :: List.replicate n true) fbd sbu =
          foldEntry (healthcheck.updateEntry e true fbd sbu) (List.replicate n true) fbd sbu := by
        simp [foldEntry]
      rw [hstep, ih _ (by omega)]
      have hue : healthcheck.updateEntry e true fbd sbu =
          ⟨if sbu ≤ e.successes + 1 then true else e.healthy, 0, e.successes + 1⟩ := by
        simp only [healthcheck.updateEntry, if_true]
        split <;> simp_all
      rw [hue]
      simp only []
      congr 1
      · split <;> split <;> simp_all <;> omega
      · push_cast
        omega

theorem updateEntry_counters_nonneg (e : healthcheck.CacheEntry) (r : Bool) (fbd sbu : Int)
    (hf : 0 ≤ e.failures) (hs : 0 ≤ e.successes) :
    0 ≤ (healthcheck.updateEntry e r fbd sbu).failures
    ∧ 0 ≤ (healthcheck.updateEntry e r fbd sbu).successes := by
  simp only [healthcheck.updateEntry]
  cases r <;> simp only [Bool.false_eq_true, if_false, if_true] <;> split <;>
    constructor <;> simp <;> omega

theorem foldEntry_counters_nonneg (fbd sbu : Int) :
    ∀ (results : List Bool) (e : healthcheck.CacheEntry),
      0 ≤ e.failures → 0 ≤ e.successes →
      0 ≤ (foldEntry e results fbd sbu).failures
      ∧ 0 ≤ (foldEntry e results fbd sbu).successes := by
  intro results
  induction results with
  | nil => intro e hf hs; exact ⟨hf, hs⟩
  | cons r rest ih =>
    intro e hf hs
    have hstep := updateEntry_counters_nonneg e r fbd sbu hf hs
    have : foldEntry e (r :: rest) fbd sbu =
        foldEntry (healthcheck.updateEntry e r fbd sbu) rest fbd sbu := by
      simp [foldEntry]
    rw [this]
    exact ih _ hstep.1 hstep.2

/-- C7: feeding any per-key probe sequence into the cache, a trailing run
of at least `failuresBeforeDown` failures leaves the key unhealthy, and a
trailing run of at least `successesBeforeUp` successes leaves it healthy —
the final flag matches the last `failuresBeforeDown`
(resp. `successesBeforeUp`) consecutive outcomes, for every earlier
history `pre`. (Each success resets the failure counter and increments the
success counter, flipping healthy at the threshold, and dually for
failures; these step facts are what the closed-form run lemmas used here
record.) -/
theorem cache_update_hysteresis (key : Str) (pre : List Bool) (fbd sbu : Int) :
    (∀ k : Nat, 1 ≤ fbd → fbd ≤ (k : Int) →
      healthcheck.cacheIsHealthy
        (healthcheck.cacheRunKey healthcheck.emptyCache key
          (pre ++ List.replicate k false) fbd sbu) key = false)
    ∧ (∀ k : Nat, 1 ≤ sbu → sbu ≤ (k : Int) →
      healthcheck.cacheIsHealthy
        (healthcheck.cacheRunKey healthcheck.emptyCache key
          (pre ++ List.replicate k true) fbd sbu) key = true) := by
  constructor
  · intro k hfbd hk
    have hk1 : 1 ≤ k := by omega
    have hne : pre ++ List.replicate k false ≠ [] := by
      simp [List.replicate_eq_nil_iff]
      omega
    have hrun := cacheRunKey_key key fbd sbu (pre ++ List.replicate k false)
      healthcheck.emptyCache hne
    rw [foldEntry_append] at hrun
    set epre := foldEntry ((healthcheck.emptyCache key).getD healthcheck.initialCacheEntry)
      pre fbd sbu with hepre
    have hnn : 0 ≤ epre.failures ∧ 0 ≤ epre.successes := by
      rw [hepre]
      exact foldEntry_counters_nonneg fbd sbu pre _ (by rfl) (by rfl)
    have hclosed := foldEntry_failure_run fbd sbu k epre hk1
    rw [hclosed] at hrun
    have hcond : fbd ≤ epre.failures + k := by omega
    rw [if_pos hcond] at hrun
    simp [healthcheck.cacheIsHealthy, healthcheck.cacheGet, hrun]
  · intro k hsbu hk
    have hk1 : 1 ≤ k := by omega
    have hne : pre ++ List.replicate k true ≠ [] := by
      simp [List.replicate_eq_nil_iff]
      omega
    have hrun := cacheRunKey_key key fbd sbu (pre ++ List.replicate k true)
      healthcheck.emptyCache hne
    rw [foldEntry_append] at hrun
    set epre := foldEntry ((healthcheck.emptyCache key).getD healthcheck.initialCacheEntry)
      pre fbd sbu with hepre
    have hnn : 0 ≤ epre.failures ∧ 0 ≤ epre.successes := by
      rw [hepre]
      exact foldEntry_counters_nonneg fbd sbu pre _ (by rfl) (by rfl)
    have hclosed := foldEntry_success_run fbd sbu k epre hk1
    rw [hclosed] at hrun
    have hcond : sbu ≤ epre.successes + k := by omega
    rw [if_pos hcond] at hrun
    simp [healthcheck.cacheIsHealthy, healthcheck.cacheGet, hrun]

/-- Witness for C7 at a concrete key: after `[true, false]` followed by
three straight failures with `failuresBeforeDown = 3` the key is
unhealthy, and after two straight successes with `successesBeforeUp = 2`
(after a failure) it is healthy. -/
theorem cache_update_hysteresis_witness :
    healthcheck.cacheIsHealthy
      (healthcheck.cacheRunKey healthcheck.emptyCache (s2l "db:1.2.3.4")
        ([true, false] ++ List.replicate 3 false) 3 1) (s2l "db:1.2.3.4") = false
    ∧ healthcheck.cacheIsHealthy
        (healthcheck.cacheRunKey healthcheck.emptyCache (s2l "db:1.2.3.4")
          ([false] ++ List.replicate 2 true) 1 2) (s2l "db:1.2.3.4") = true :=
  ⟨(cache_update_hysteresis (s2l "db:1.2.3.4") [true, false] 3 1).1 3 (by norm_num)
      (by norm_num),
    (cache_update_hysteresis (s2l "db:1.2.3.4") [false] 1 2).2 2 (by norm_num) (by norm_num)⟩

/-! ## C5 / C6 — the weighted balancer -/

theorem sumPosWeights_nonneg (l : List loadbalance.Entry) : 0 ≤ loadbalance.sumPosWeights l := by
  induction l with
  | nil => simp [loadbalance.sumPosWeights]
  | cons e rest ih =>
    simp only [loadbalance.sumPosWeights]
    split <;> omega

theorem sumPosWeights_pos (l : List loadbalance.Entry) (e : loadbalance.Entry)
    (he : e ∈ l) (hw : 0 < e.Weight) : 0 < loadbalance.sumPosWeights l := by
  induction l with
  | nil => simp at he
  | cons x rest ih =>
    rcases List.mem_cons.mp he with h | h
    · subst h
      have := sumPosWeights_nonneg rest
      simp only [loadbalance.sumPosWeights, if_pos hw]
      omega
    · have := ih h
      have hx : 0 ≤ (if 0 < x.Weight then x.Weight else 0) := by split <;> omega
      simp only [loadbalance.sumPosWeights]
      omega

theorem sumPosWeights_eq_zero (l : List loadbalance.Entry)
    (h : ∀ e ∈ l, e.Weight ≤ 0) : loadbalance.sumPosWeights l = 0 := by
  induction l with
  | nil => rfl
  | cons x rest ih =>
    have hx := h x (List.mem_cons_self x rest)
    simp only [loadbalance.sumPosWeights, if_neg (by omega : ¬ 0 < x.Weight)]
    rw [ih (fun e he => h e (List.mem_cons_of_mem x he))]
    omega

theorem scanWeights_pos (r : Int) :
    ∀ (l : List loadbalance.Entry) (cum : Int), cum ≤ r →
      r < cum + loadbalance.sumPosWeights l →
      ∃ i, loadbalance.scanWeights l r cum = some i ∧ i < l.length ∧
        0 < (l.getD i default).Weight := by
  intro l
  induction l with
  | nil =>
    intro cum h1 h2
    simp [loadbalance.sumPosWeights] at h2
    omega
  | cons e rest ih =>
    intro cum h1 h2
    simp only [loadbalance.sumPosWeights] at h2
    by_cases hw : 0 < e.Weight
    · rw [if_pos hw] at h2
      by_cases hr : r < cum + e.Weight
      · refine ⟨0, ?_, by simp, by simpa using hw⟩
        simp [loadbalance.scanWeights, if_pos hw, if_pos hr]
      · obtain ⟨i, heq, hlt, hpos⟩ := ih (cum + e.Weight) (by omega) (by omega)
        refine ⟨i + 1, ?_, by simpa using hlt, by simpa using hpos⟩
        simp [loadbalance.scanWeights, if_pos hw, if_neg hr, heq]
    · rw [if_neg hw] at h2
      obtain ⟨i, heq, hlt, hpos⟩ := ih cum (by omega) (by omega)
      refine ⟨i + 1, ?_, by simpa using hlt, by simpa using hpos⟩
      simp [loadbalance.scanWeights, if_neg hw, heq]

theorem scanWeights_lt (r : Int) :
    ∀ (l : List loadbalance.Entry) (cum : Int) (i : Nat),
      loadbalance.scanWeights l r cum = some i → i < l.length := by
  intro l
  induction l with
  | nil => intro cum i h; simp [loadbalance.scanWeights] at h
  | cons e rest ih =>
    intro cum i h
    simp only [loadbalance.scanWeights] at h
    by_cases hw : 0 < e.Weight
    · rw [if_pos hw] at h
      by_cases hr : r < cum + e.Weight
      · rw [if_pos hr] at h
        have h0 : (0 : Nat) = i := by simpa using h
        rw [← h0]
        simp
      · rw [if_neg hr] at h
        rcases Option.map_eq_some'.mp h with ⟨j, hj, hij⟩
        have := ih _ _ hj
        simp [← hij]
        omega
    · rw [if_neg hw] at h
      rcases Option.map_eq_some'.mp h with ⟨j, hj, hij⟩
      have := ih _ _ hj
      simp [← hij]
      omega

theorem weightedSelect_lt (entries : List loadbalance.Entry) (seed : Nat)
    (hne : entries ≠ []) : loadbalance.weightedSelect entries seed < entries.length := by
  have hlen : 0 < entries.length := List.length_pos.mpr hne
  simp only [loadbalance.weightedSelect]
  split
  · omega
  · split
    · exact Nat.mod_lt _ hlen
    · split
      · next i heq => exact scanWeights_lt _ _ _ _ heq
      · omega

/-- `swapRemove` shortens the list by one. -/
theorem swapRemove_length (l : List loadbalance.Entry) (i : Nat) :
    (loadbalance.swapRemove l i).length = l.length - 1 := by
  simp [loadbalance.swapRemove]

/-- The swap-with-last removal step preserves the multiset of entries:
the original list is a permutation of the selected element consed onto the
remainder. -/
theorem swapRemove_perm :
    ∀ (l : List loadbalance.Entry) (i : Nat), i < l.length →
      l.Perm ((l.getD i default) :: loadbalance.swapRemove l i) := by
  intro l
  induction l with
  | nil => intro i h; simp at h
  | cons x rest ih =>
    intro i hi
    by_cases hr : rest = []
    · subst hr
      have hi0 : i = 0 := by simpa using hi
      subst hi0
      simp [loadbalance.swapRemove]
    · have hrpos : 0 < rest.length := List.length_pos.mpr hr
      have hlast : (x :: rest).getD ((x :: rest).length - 1) default =
          rest.getD (rest.length - 1) default := by
        have h1 : (x :: rest).length - 1 = (rest.length - 1) + 1 := by
          simp only [List.length_cons]
          omega
        rw [h1, List.getD_cons_succ]
      match i with
      | 0 =>
        have hgl : rest.getD (rest.length - 1) default = rest.getLast hr := by
          rw [List.getD_eq_getElem _ _ (by omega), List.getLast_eq_getElem]
        simp only [loadbalance.swapRemove, hlast, List.getD_cons_zero, List.set_cons_zero]
        rw [List.dropLast_cons_of_ne_nil hr, hgl]
        refine List.Perm.cons x ?_
        have hsplit : rest.dropLast ++ [rest.getLast hr] = rest :=
          List.dropLast_concat_getLast hr
        have hps := List.perm_append_singleton (rest.getLast hr) rest.dropLast
        rw [hsplit] at hps
        exact hps
      | j + 1 =>
        have hj : j < rest.length := by simpa using hi
        have hswap : loadbalance.swapRemove (x :: rest) (j + 1) =
            x :: loadbalance.swapRemove rest j := by
          simp only [loadbalance.swapRemove, hlast, List.set_cons_succ]
          have hne2 : rest.set j (rest.getD (rest.length - 1) default) ≠ [] := by
            intro hc
            have := congrArg List.length hc
            simp only [List.length_set, List.length_nil] at this
            omega
          rw [List.dropLast_cons_of_ne_nil hne2]
        rw [hswap, List.getD_cons_succ]
        have ihp := ih j hj
        have step1 : List.Perm (x :: rest)
            (x :: (rest.getD j default :: loadbalance.swapRemove rest j)) :=
          List.Perm.cons x ihp
        exact step1.trans (List.Perm.swap _ _ _)

/-- The shuffle loop emits exactly the IPs of its input, as a
permutation, whenever it is given enough fuel. -/
theorem selectLoop_perm :
    ∀ (fuel : Nat) (l : List loadbalance.Entry) (seeds : List Nat), l.length ≤ fuel →
      ((loadbalance.selectLoop fuel l seeds).1).Perm (l.map (·.IP)) := by
  intro fuel
  induction fuel with
  | zero =>
    intro l seeds hle
    have : l = [] := List.eq_nil_of_length_eq_zero (by omega)
    subst this
    simp [loadbalance.selectLoop]
  | succ n ih =>
    intro l seeds hle
    by_cases h : l = []
    · subst h
      simp [loadbalance.selectLoop]
    · simp only [loadbalance.selectLoop, if_neg h]
      have hlt := weightedSelect_lt l (seeds.headD 0) h
      have hperm := swapRemove_perm l (loadbalance.weightedSelect l (seeds.headD 0)) hlt
      have hlen : (loadbalance.swapRemove l
          (loadbalance.weightedSelect l (seeds.headD 0))).length ≤ n := by
        rw [swapRemove_length]
        have : 0 < l.length := List.length_pos.mpr h
        omega
      have ihp := ih (loadbalance.swapRemove l (loadbalance.weightedSelect l (seeds.headD 0)))
        (if l.length = 1 then seeds else seeds.tail) hlen
      have hmap := hperm.map (·.IP)
      simp only [List.map_cons] at hmap
      exact (List.Perm.cons _ ihp).trans hmap.symm

/-- C5: `Select` returns a permutation of the healthy entries' IPs (each
exactly once; unhealthy IPs never appear), the empty list (with no draw
consumed) when no entry is healthy, and the single healthy entry's IP
directly — consuming no random draw — when exactly one is healthy. -/
theorem Select_spec (entries : List loadbalance.Entry) (seeds : List Nat) :
    ((loadbalance.Select entries seeds).1).Perm
        ((entries.filter (·.Healthy)).map (·.IP))
    ∧ (entries.filter (·.Healthy) = [] → loadbalance.Select entries seeds = ([], seeds))
    ∧ (∀ en, entries.filter (·.Healthy) = [en] →
        loadbalance.Select entries seeds = ([en.IP], seeds)) := by
  refine ⟨?_, ?_, ?_⟩
  · by_cases hent : entries = []
    · subst hent
      simp [loadbalance.Select]
    · simp only [loadbalance.Select, if_neg hent]
      by_cases hh : entries.filter (·.Healthy) = []
      · simp [hh]
      · rw [if_neg hh]
        by_cases h1 : (entries.filter (·.Healthy)).length = 1
        · rw [if_pos h1]
          obtain ⟨en, hen⟩ := List.length_eq_one.mp h1
          simp [hen]
        · rw [if_neg h1]
          exact selectLoop_perm _ _ _ (le_refl _)
  · intro hh
    by_cases hent : entries = []
    · simp [loadbalance.Select, hent]
    · simp [loadbalance.Select, if_neg hent, hh]
  · intro en hen
    have hent : entries ≠ [] := by
      intro hc
      rw [hc] at hen
      simp at hen
    simp [loadbalance.Select, if_neg hent, hen]

/-- Witness for C5: a two-entry list with one unhealthy entry yields
exactly the healthy entry's IP and consumes no draw. -/
theorem Select_spec_witness :
    loadbalance.Select
        [⟨s2l "192.168.1.1", 3, false⟩, ⟨s2l "192.168.1.2", 1, true⟩] [7] =
      ([s2l "192.168.1.2"], [7]) :=
  (Select_spec [⟨s2l "192.168.1.1", 3, false⟩, ⟨s2l "192.168.1.2", 1, true⟩] [7]).2.2
    ⟨s2l "192.168.1.2", 1, true⟩ (by decide)

/-- C6: in a draw round, an entry with non-positive weight is never
selected while some remaining entry has positive weight, and when every
remaining entry has non-positive weight the draw falls back to a uniform
pick over the remaining entries (`rand.IntN(len(entries))`, i.e.
`seed % length`). -/
theorem weightedSelect_spec (entries : List loadbalance.Entry) (seed : Nat) :
    ((∃ en ∈ entries, 0 < en.Weight) →
      0 < (entries.getD (loadbalance.weightedSelect entries seed) default).Weight)
    ∧ ((∀ en ∈ entries, en.Weight ≤ 0) → entries ≠ [] →
      loadbalance.weightedSelect entries seed = seed % entries.length) := by
  constructor
  · rintro ⟨en, hen, hw⟩
    have htot : 0 < loadbalance.sumPosWeights entries := sumPosWeights_pos entries en hen hw
    by_cases h1 : entries.length = 1
    · obtain ⟨x, hx⟩ := List.length_eq_one.mp h1
      subst hx
      have : en = x := by simpa using hen
      subst this
      simp [loadbalance.weightedSelect, hw]
    · have hr0 : (0 : Int) ≤ ((seed % (loadbalance.sumPosWeights entries).toNat : Nat) : Int) :=
        Int.ofNat_nonneg _
      have hrlt : ((seed % (loadbalance.sumPosWeights entries).toNat : Nat) : Int) <
          loadbalance.sumPosWeights entries := by
        have htn : 0 < (loadbalance.sumPosWeights entries).toNat := by
          omega
        have := Nat.mod_lt seed htn
        omega
      obtain ⟨i, heq, hlt, hpos⟩ := scanWeights_pos _ entries 0 hr0 (by omega)
      simp only [loadbalance.weightedSelect, if_neg h1,
        if_neg (by omega : ¬ loadbalance.sumPosWeights entries = 0), heq]
      exact hpos
  · intro hall hne
    have htot : loadbalance.sumPosWeights entries = 0 := sumPosWeights_eq_zero entries hall
    by_cases h1 : entries.length = 1
    · rw [h1, Nat.mod_one]
      simp [loadbalance.weightedSelect, h1]
    · simp [loadbalance.weightedSelect, if_neg h1, htot]

/-- Witness for C6: with weights `[2, -1]` the positive-weight entry is
selected (its weight is positive), and with all weights non-positive the
draw is `seed % len`. -/
theorem weightedSelect_spec_witness :
    0 < (([⟨s2l "10.0.0.1", 2, true⟩, ⟨s2l "10.0.0.2", -1, true⟩] :
          List loadbalance.Entry).getD
        (loadbalance.weightedSelect
          [⟨s2l "10.0.0.1", 2, true⟩, ⟨s2l "10.0.0.2", -1, true⟩] 1) default).Weight
    ∧ loadbalance.weightedSelect
        [⟨s2l "10.0.0.1", -1, true⟩, ⟨s2l "10.0.0.2", 0, true⟩] 5 = 5 % 2 :=
  ⟨(weightedSelect_spec [⟨s2l "10.0.0.1", 2, true⟩, ⟨s2l "10.0.0.2", -1, true⟩] 1).1
      ⟨⟨s2l "10.0.0.1", 2, true⟩, by decide, by decide⟩,
    (weightedSelect_spec [⟨s2l "10.0.0.1", -1, true⟩, ⟨s2l "10.0.0.2", 0, true⟩] 5).2
      (by decide) (by decide)⟩

/-! ## C1 — when does ServeDNS return SERVFAIL -/

theorem fab_nil (e : handler.EtcdHosts) (hostname : Str) (seeds : List Nat) :
    handler.filterAndBalance e hostname [] seeds = ([], seeds) := by
  simp [handler.filterAndBalance]


/-- Counterexample to C1: an A query for a name whose entries are all
unhealthy, under `return_empty` with fallthrough disabled, is answered
with `RcodeSuccess` and an empty answer section — not SERVFAIL — because
`otherRecordsExist` still sees the (unhealthy) entries. -/
theorem serveDNS_unhealthy_returnEmpty_counterexample :
    handler.serveDNS c1Handler id (s2l "svc.example.com.") .A [] =
      handler.DnsResponse.success []
    ∧ handler.DnsResponse.success [] ≠ handler.DnsResponse.servfail :=
  ⟨by decide, by decide⟩

/-- C1 as amended: an in-zone A/AAAA query yields SERVFAIL exactly when,
in addition to the pipeline producing no answers and fallthrough not
matching, no records of either address family exist for the name; when
records exist but are all unhealthy under `return_empty`, the response is
a success with an empty answer section. -/
theorem serveDNS_servfail_requires_no_records (e : handler.EtcdHosts) (revAddr : Str → Str)
    (qname : Str) (seeds : List Nat) :
    (e.zoneMatch qname = true → e.store.LookupV4WithWildcard qname = [] →
      e.store.LookupV6WithWildcard qname = [] → e.fallThrough qname = false →
      handler.serveDNS e revAddr qname .A seeds = .servfail
      ∧ handler.serveDNS e revAddr qname .AAAA seeds = .servfail)
    ∧ (∀ cache, e.checker = some ⟨cache, .PolicyReturnEmpty⟩ →
      e.zoneMatch qname = true →
      e.store.LookupV4WithWildcard qname ≠ [] →
      (∀ en ∈ e.store.LookupV4WithWildcard qname,
        healthcheck.cacheIsHealthy cache (healthcheck.healthKeyOf qname en.IP) = false) →
      handler.serveDNS e revAddr qname .A seeds = .success []) := by
  constructor
  · intro hz h4 h6 hf
    have hother : handler.otherRecordsExist e qname = false := by
      simp [handler.otherRecordsExist, h4, h6]
    constructor
    · simp [handler.serveDNS, hz, h4, fab_nil, hother, hf]
    · simp [handler.serveDNS, hz, h6, fab_nil, hother, hf]
  · intro cache hchk hz h4 hall
    obtain ⟨zm, ft, ttl, st, chk⟩ := e
    simp only at hchk
    subst hchk
    replace hz : zm qname = true := hz
    replace h4 : st.LookupV4WithWildcard qname ≠ [] := h4
    replace hall : ∀ en ∈ st.LookupV4WithWildcard qname,
        healthcheck.cacheIsHealthy cache (healthcheck.healthKeyOf qname en.IP) = false := hall
    have hfab := fab_all_unhealthy_empty zm ft ttl st cache .PolicyReturnEmpty qname
      (st.LookupV4WithWildcard qname) seeds (Or.inl rfl) hall
    have hother : handler.otherRecordsExist
        ⟨zm, ft, ttl, st, some ⟨cache, .PolicyReturnEmpty⟩⟩ qname = true := by
      have : 0 < (st.LookupV4WithWildcard qname).length := List.length_pos.mpr h4
      simp [handler.otherRecordsExist, this]
    simp [handler.serveDNS, hz, hfab, hother]

/-- Witness for C1's amended statement: an empty store and an in-zone A
query with fallthrough disabled produce SERVFAIL. -/
theorem serveDNS_servfail_requires_no_records_witness :
    handler.serveDNS ⟨fun _ => true, fun _ => false, 3600, ⟨[], [], []⟩, none⟩ id
      (s2l "gone.example.com.") .A [] = .servfail :=
  ((serveDNS_servfail_requires_no_records
      ⟨fun _ => true, fun _ => false, 3600, ⟨[], [], []⟩, none⟩ id
      (s2l "gone.example.com.") []).1 rfl (by decide) (by decide) rfl).1

/-! ## C4 — answer TTLs -/


/-- Counterexample to C4: with two entries of TTLs 60 and 3600, both
answers carry 60 (the first entry's TTL); the answer for `192.168.1.2`
does not carry its own entry's TTL 3600. -/
theorem answer_ttl_counterexample :
    handler.serveDNS c4Handler id (s2l "api.example.com.") .A [0] =
      handler.DnsResponse.success
        [.A (s2l "api.example.com.") 60 (s2l "192.168.1.1"),
         .A (s2l "api.example.com.") 60 (s2l "192.168.1.2")]
    ∧ (60 : Nat) ≠ 3600 :=
  ⟨by decide, by decide⟩

/-- C4 as amended: every answer record of an answered A (resp. AAAA) query
carries one shared TTL, `getTTL` of the looked-up entry list — the first
entry's TTL when that is set (> 0), else the zone default — rather than a
per-entry TTL. -/
theorem answer_ttl_uses_first_entry (e : handler.EtcdHosts) (revAddr : Str → Str)
    (qname : Str) (seeds : List Nat) :
    (∀ answers, handler.serveDNS e revAddr qname .A seeds = .success answers →
      ∀ rr ∈ answers, handler.rrTTL rr =
        handler.getTTL e (e.store.LookupV4WithWildcard qname))
    ∧ (∀ answers, handler.serveDNS e revAddr qname .AAAA seeds = .success answers →
      ∀ rr ∈ answers, handler.rrTTL rr =
        handler.getTTL e (e.store.LookupV6WithWildcard qname))
    ∧ handler.getTTL e [] = e.TTL
    ∧ (∀ en rest, handler.getTTL e (en :: rest) =
        if 0 < en.TTL then en.TTL else e.TTL) := by
  refine ⟨?_, ?_, rfl, fun en rest => rfl⟩
  · intro answers h rr hrr
    simp only [handler.serveDNS] at h
    split at h
    · simp at h
    · split at h
      · simp at h
      · split at h
        · split at h
          · split at h <;> simp at h
          · rw [handler.DnsResponse.success.injEq] at h
            subst h
            simp only [handler.aRecords, List.mem_map] at hrr
            obtain ⟨ip, _, hmap⟩ := hrr
            rw [← hmap]
            rfl
        · split at h
          · split at h <;> simp at h
          · rw [handler.DnsResponse.success.injEq] at h
            rw [← h] at hrr
            simp at hrr
  · intro answers h rr hrr
    simp only [handler.serveDNS] at h
    split at h
    · simp at h
    · split at h
      · simp at h
      · split at h
        · split at h
          · split at h <;> simp at h
          · rw [handler.DnsResponse.success.injEq] at h
            subst h
            simp only [handler.aaaaRecords, List.mem_map] at hrr
            obtain ⟨ip, _, hmap⟩ := hrr
            rw [← hmap]
            rfl
        · split at h
          · split at h <;> simp at h
          · rw [handler.DnsResponse.success.injEq] at h
            rw [← h] at hrr
            simp at hrr

/-- Witness for C4's amended statement on the two-TTL store: both answers
carry `getTTL` of the entry list, which is 60. -/
theorem answer_ttl_uses_first_entry_witness :
    handler.rrTTL (.A (s2l "api.example.com.") 60 (s2l "192.168.1.2")) =
      handler.getTTL c4Handler (c4Handler.store.LookupV4WithWildcard (s2l "api.example.com.")) :=
  (answer_ttl_uses_first_entry c4Handler id (s2l "api.example.com.") [0]).1
    [.A (s2l "api.example.com.") 60 (s2l "192.168.1.1"),
     .A (s2l "api.example.com.") 60 (s2l "192.168.1.2")]
    (by decide)
    (.A (s2l "api.example.com.") 60 (s2l "192.168.1.2")) (by decide)

/-! ## C2 / C8 — wildcard matching and selection -/

theorem take_compl_of_append (t s : Str) :
    (t ++ s).take ((t ++ s).length - s.length) = t := by
  have h : (t ++ s).length - s.length = t.length := by simp
  rw [h, List.take_left]

theorem contains_dot_iff (l : Str) : (l.contains '.') = true ↔ '.' ∈ l := by
  simp [List.contains]

theorem contains_dot_false_iff (l : Str) : (l.contains '.') = false ↔ '.' ∉ l := by
  rw [← Bool.not_eq_true, not_iff_not, contains_dot_iff]

/-- The match condition of `wildcardCore` as a proposition: exact
equality, or the `*.` shape with a suffix match and a dot-free
complement. -/
theorem wildcardCore_true_iff (p n : Str) :
    hosts.wildcardCore p n = true ↔
      p = n ∨ (['*', '.'] <+: p ∧ p.drop 1 <:+ n ∧
        '.' ∉ n.take (n.length - (p.drop 1).length)) := by
  unfold hosts.wildcardCore
  by_cases h1 : p = n
  · simp [h1]
  · rw [if_neg h1]
    by_cases h2 : ['*', '.'].isPrefixOf p = true
    · rw [if_neg (not_not_intro h2)]
      by_cases h3 : (p.drop 1).isSuffixOf n = true
      · rw [if_neg (not_not_intro h3)]
        rw [ List.isPrefixOf_iff_prefix] at h2
        rw [List.isSuffixOf_iff_suffix] at h3
        rw [Bool.not_eq_true', contains_dot_false_iff]
        constructor
        · intro h
          exact Or.inr ⟨h2, h3, h⟩
        · rintro (heq | ⟨_, _, hnd⟩)
          · exact absurd heq h1
          · exact hnd
      · rw [if_pos h3]
        rw [List.isSuffixOf_iff_suffix] at h3
        constructor
        · intro h
          exact absurd h (by simp)
        · rintro (heq | ⟨_, hsuf, _⟩)
          · exact absurd heq h1
          · exact absurd hsuf h3
    · rw [if_pos h2]
      rw [ List.isPrefixOf_iff_prefix] at h2
      constructor
      · intro h
        exact absurd h (by simp)
      · rintro (heq | ⟨hpre, _, _⟩)
        · exact absurd heq h1
        · exact absurd hpre h2

/-- Introduction: an exact pattern matches. -/
theorem wildcardCore_of_eq (p n : Str) (h : p = n) : hosts.wildcardCore p n = true :=
  (wildcardCore_true_iff p n).mpr (Or.inl h)

/-- Introduction: a `*.`-pattern whose tail is a suffix of the name with a
dot-free complement matches. -/
theorem wildcardCore_of_suffix (p n : Str)
    (hpre : ['*', '.'] <+: p) (hsuf : p.drop 1 <:+ n)
    (hnd : '.' ∉ n.take (n.length - (p.drop 1).length)) :
    hosts.wildcardCore p n = true :=
  (wildcardCore_true_iff p n).mpr (Or.inr ⟨hpre, hsuf, hnd⟩)

/-- Elimination: a successful match is exact, or the pattern is a
`*.`-pattern whose tail is a suffix of the name with a dot-free
complement. -/
theorem wildcardCore_elim (p n : Str) (h : hosts.wildcardCore p n = true) :
    p = n ∨ (['*', '.'] <+: p ∧ p.drop 1 <:+ n ∧
      '.' ∉ n.take (n.length - (p.drop 1).length)) :=
  (wildcardCore_true_iff p n).mp h

/-- For a `*.`-shaped pattern, a successful match always yields the
suffix/dot-free-complement form (the exact-match case included: the
pattern itself then starts with the dot-free label `*`). -/
theorem wildcardCore_shape_elim (p n : Str) (hw : hosts.isWildcard p = true)
    (h : hosts.wildcardCore p n = true) :
    p.drop 1 <:+ n ∧ '.' ∉ n.take (n.length - (p.drop 1).length) := by
  obtain ⟨t, ht⟩ : ∃ t, p = '*' :: '.' :: t := by
    obtain ⟨t, ht⟩ := List.isPrefixOf_iff_prefix.mp hw
    exact ⟨t, ht.symm⟩
  rcases wildcardCore_elim p n h with heq | ⟨_, hsuf, hnd⟩
  · subst heq
    constructor
    · exact List.drop_suffix 1 p
    · have hlen : p.length - (p.drop 1).length = 1 := by
        rw [ht]
        simp
      rw [hlen, ht]
      simp
  · exact ⟨hsuf, hnd⟩

/-- Two suffixes of the same name that both start with a dot and both have
dot-free complements coincide (auxiliary, one direction of the suffix
order). -/
theorem suffix_nodot_eq_aux (s1 s2 n : Str) (h1 : s1 <:+ n) (h2 : s2 <:+ n)
    (hh2 : ∃ t2, s2 = '.' :: t2)
    (hd1 : '.' ∉ n.take (n.length - s1.length))
    (hsub : s1 <:+ s2) : s1 = s2 := by
  obtain ⟨u, hu⟩ := hsub
  cases u with
  | nil => simpa using hu
  | cons c u' =>
    exfalso
    obtain ⟨t2, ht2⟩ := hh2
    have hc : c = '.' := by
      rw [ht2] at hu
      exact (List.cons.injEq _ _ _ _).mp hu |>.1
    obtain ⟨t1, ht1⟩ := h1
    obtain ⟨v2, hv2⟩ := h2
    have heq : t1 ++ s1 = (v2 ++ (c :: u')) ++ s1 := by
      rw [List.append_assoc, hu, hv2, ht1]
    have ht1eq : t1 = v2 ++ (c :: u') := List.append_cancel_right heq
    have hcompl : n.take (n.length - s1.length) = t1 := by
      rw [← ht1, take_compl_of_append]
    rw [hcompl, ht1eq, hc] at hd1
    simp at hd1

/-- At most one `*.`-shaped pattern can match a given name: any two that
match are equal. -/
theorem wildcardCore_unique (p q n : Str)
    (hp : hosts.isWildcard p = true) (hq : hosts.isWildcard q = true)
    (h1 : hosts.wildcardCore p n = true) (h2 : hosts.wildcardCore q n = true) : p = q := by
  obtain ⟨tp, htp⟩ : ∃ t, p = '*' :: '.' :: t := by
    obtain ⟨t, ht⟩ := List.isPrefixOf_iff_prefix.mp hp
    exact ⟨t, ht.symm⟩
  obtain ⟨tq, htq⟩ : ∃ t, q = '*' :: '.' :: t := by
    obtain ⟨t, ht⟩ := List.isPrefixOf_iff_prefix.mp hq
    exact ⟨t, ht.symm⟩
  obtain ⟨hsp, hdp⟩ := wildcardCore_shape_elim p n hp h1
  obtain ⟨hsq, hdq⟩ := wildcardCore_shape_elim q n hq h2
  have hps : p = '*' :: p.drop 1 := by simp [htp]
  have hqs : q = '*' :: q.drop 1 := by simp [htq]
  have hssp : ∃ t, p.drop 1 = '.' :: t := ⟨tp, by simp [htp]⟩
  have hssq : ∃ t, q.drop 1 = '.' :: t := ⟨tq, by simp [htq]⟩
  have heq : p.drop 1 = q.drop 1 := by
    rcases List.suffix_or_suffix_of_suffix hsp hsq with hss | hss
    · exact suffix_nodot_eq_aux _ _ n hsp hsq hssq hdp hss
    · exact (suffix_nodot_eq_aux _ _ n hsq hsp hssp hdq hss).symm
  rw [hps, hqs, heq]

theorem wildcardMatch_eq_core (p ln : Str) (hln : strToLower ln = ln) :
    hosts.wildcardMatch (strToLower p) ln = hosts.wildcardCore (strToLower p) ln := by
  unfold hosts.wildcardMatch
  rw [strToLower_idem, hln]

theorem matchScore_exact (ln : Str) : hosts.matchScore ln ln = 1073741824 := by
  simp [hosts.matchScore]

theorem matchScore_ne (lp ln : Str) (h : lp ≠ ln) : hosts.matchScore lp ln = lp.length := by
  simp [hosts.matchScore, h]

/-- A non-exact wildcard match is at most one character longer than the
name (the `*` replaces a non-empty-or-empty dot-free label). -/
theorem wild_length_le (lp ln : Str) (hne : lp ≠ ln)
    (hc : hosts.wildcardCore lp ln = true) :
    (lp.length : Int) ≤ (ln.length : Int) + 1 := by
  rcases wildcardCore_elim lp ln hc with heq | ⟨hpre, hsuf, _⟩
  · exact absurd heq hne
  · have h1 : (lp.drop 1).length ≤ ln.length := hsuf.length_le
    have h2 : (lp.drop 1).length = lp.length - 1 := by simp
    have h3 : 2 ≤ lp.length := by simpa using hpre.length_le
    omega

/-- A non-exact match has the `*.` shape. -/
theorem shape_of_core_ne (lp ln : Str) (hne : lp ≠ ln)
    (hc : hosts.wildcardCore lp ln = true) : hosts.isWildcard lp = true := by
  rcases wildcardCore_elim lp ln hc with heq | ⟨hpre, _, _⟩
  · exact absurd heq hne
  · unfold hosts.isWildcard
    exact List.isPrefixOf_iff_prefix.mpr hpre

/-- The selection loop returns the incoming best match when nothing in the
list matches. -/
theorem selectBestGo_no_match (ln : Str) (hln : strToLower ln = ln) :
    ∀ (ps : List Str) (best : Str) (bs : Int),
      (∀ p ∈ ps, hosts.wildcardCore (strToLower p) ln = false) →
      hosts.selectBestGo ps ln best bs = best := by
  intro ps
  induction ps with
  | nil => intro best bs _; rfl
  | cons p rest ih =>
    intro best bs hall
    have hp := hall p (List.mem_cons_self p rest)
    have hg : hosts.wildcardMatch (strToLower p) ln = false := by
      rw [wildcardMatch_eq_core p ln hln, hp]
    simp only [hosts.selectBestGo]
    rw [if_pos (by simp [hg])]
    exact ih best bs (fun q hq => hall q (List.mem_cons_of_mem p hq))

/-- The selection loop returns the (lowered) name whenever one of the
patterns is an exact match, under the code's score regime (`1 << 30` for
exact, pattern length otherwise): an exact match always wins because a
matching wildcard is at most one character longer than the name, which is
shorter than `1 << 30`. -/
theorem selectBestGo_exact (ln : Str) (hln : strToLower ln = ln)
    (hlen : (ln.length : Int) + 1 < 1073741824) :
    ∀ (ps : List Str) (best : Str) (bs : Int),
      bs ≤ 1073741824 →
      (bs = 1073741824 → best = ln) →
      ((∃ p ∈ ps, strToLower p = ln) ∨ (bs = 1073741824 ∧ best = ln)) →
      hosts.selectBestGo ps ln best bs = ln := by
  intro ps
  induction ps with
  | nil =>
    intro best bs _ _ hcond
    rcases hcond with ⟨p, hp, _⟩ | ⟨_, hbest⟩
    · simp at hp
    · exact hbest
  | cons p rest ih =>
    intro best bs hbs himp hcond
    by_cases hex : strToLower p = ln
    · have hg : hosts.wildcardMatch (strToLower p) ln = true := by
        rw [wildcardMatch_eq_core p ln hln, hex]
        exact wildcardCore_of_eq ln ln rfl
      simp only [hosts.selectBestGo]
      rw [if_neg (by simp [hg])]
      rw [hex, matchScore_exact]
      by_cases hlt : bs < 1073741824
      · rw [if_pos hlt]
        exact ih ln 1073741824 le_rfl (fun _ => rfl) (Or.inr ⟨rfl, rfl⟩)
      · rw [if_neg hlt]
        have hbs' : bs = 1073741824 := le_antisymm hbs (by omega)
        exact ih best bs hbs himp (Or.inr ⟨hbs', himp hbs'⟩)
    · cases hc : hosts.wildcardCore (strToLower p) ln with
      | false =>
        have hg : hosts.wildcardMatch (strToLower p) ln = false := by
          rw [wildcardMatch_eq_core p ln hln]
          exact hc
        simp only [hosts.selectBestGo]
        rw [if_pos (by simp [hg])]
        refine ih best bs hbs himp ?_
        rcases hcond with ⟨q, hq, hq2⟩ | h2
        · rcases List.mem_cons.mp hq with rfl | hq'
          · exact absurd hq2 hex
          · exact Or.inl ⟨q, hq', hq2⟩
        · exact Or.inr h2
      | true =>
        have hg : hosts.wildcardMatch (strToLower p) ln = true := by
          rw [wildcardMatch_eq_core p ln hln]
          exact hc
        simp only [hosts.selectBestGo]
        rw [if_neg (by simp [hg])]
        rw [matchScore_ne _ _ hex]
        have hscore : ((strToLower p).length : Int) < 1073741824 :=
          lt_of_le_of_lt (wild_length_le _ _ hex hc) hlen
        by_cases hlt : bs < ((strToLower p).length : Int)
        · rw [if_pos hlt]
          refine ih (strToLower p) _ (le_of_lt hscore)
            (fun habs => absurd habs (by omega)) ?_
          rcases hcond with ⟨q, hq, hq2⟩ | ⟨hbs', _⟩
          · rcases List.mem_cons.mp hq with rfl | hq'
            · exact absurd hq2 hex
            · exact Or.inl ⟨q, hq', hq2⟩
          · omega
        · rw [if_neg hlt]
          refine ih best bs hbs himp ?_
          rcases hcond with ⟨q, hq, hq2⟩ | h2
          · rcases List.mem_cons.mp hq with rfl | hq'
            · exact absurd hq2 hex
            · exact Or.inl ⟨q, hq', hq2⟩
          · exact Or.inr h2

/-- The selection loop returns `w` when no pattern matches exactly, all
matching patterns lower to `w`, and either no pattern has been selected
yet but a matching one is still to come, or `w` is already selected. -/
theorem selectBestGo_wild (ln w : Str) (hln : strToLower ln = ln) (hwne : w ≠ ln) :
    ∀ (ps : List Str) (best : Str) (bs : Int),
      (∀ p ∈ ps, strToLower p ≠ ln) →
      (∀ p ∈ ps, hosts.wildcardCore (strToLower p) ln = true → strToLower p = w) →
      ((best = [] ∧ bs = -1 ∧ ∃ q ∈ ps, hosts.wildcardCore (strToLower q) ln = true)
        ∨ (best = w ∧ bs = (w.length : Int))) →
      hosts.selectBestGo ps ln best bs = w := by
  intro ps
  induction ps with
  | nil =>
    intro best bs _ _ hcond
    rcases hcond with ⟨_, _, q, hq, _⟩ | ⟨hbest, _⟩
    · simp at hq
    · exact hbest
  | cons p rest ih =>
    intro best bs hnx hall hcond
    have hnx' : ∀ q ∈ rest, strToLower q ≠ ln :=
      fun q hq => hnx q (List.mem_cons_of_mem p hq)
    have hall' : ∀ q ∈ rest, hosts.wildcardCore (strToLower q) ln = true → strToLower q = w :=
      fun q hq => hall q (List.mem_cons_of_mem p hq)
    cases hc : hosts.wildcardCore (strToLower p) ln with
    | true =>
      have hpw : strToLower p = w := hall p (List.mem_cons_self p rest) hc
      have hg : hosts.wildcardMatch (strToLower p) ln = true := by
        rw [wildcardMatch_eq_core p ln hln]
        exact hc
      simp only [hosts.selectBestGo]
      rw [if_neg (by simp [hg])]
      rw [hpw, matchScore_ne _ _ hwne]
      rcases hcond with ⟨hbest, hbs, _⟩ | ⟨hbest, hbs⟩
      · rw [hbest, hbs]
        rw [if_pos (by omega)]
        exact ih w _ hnx' hall' (Or.inr ⟨rfl, rfl⟩)
      · rw [hbest, hbs]
        rw [if_neg (lt_irrefl _)]
        exact ih w _ hnx' hall' (Or.inr ⟨rfl, rfl⟩)
    | false =>
      have hg : hosts.wildcardMatch (strToLower p) ln = false := by
        rw [wildcardMatch_eq_core p ln hln]
        exact hc
      simp only [hosts.selectBestGo]
      rw [if_pos (by simp [hg])]
      refine ih best bs hnx' hall' ?_
      rcases hcond with ⟨hb, hbs2, q, hq, hqc⟩ | h2
      · rcases List.mem_cons.mp hq with rfl | hq'
        · rw [hc] at hqc
          exact absurd hqc (by simp)
        · exact Or.inl ⟨hb, hbs2, q, hq', hqc⟩
      · exact Or.inr h2

/-- `selectBestMatch` returns the lowered name when an exact match is
present (and the name is shorter than the `1 << 30` score sentinel). -/
theorem sbm_exact (patterns : List Str) (name : Str)
    (hlen : name.length + 1 < 1073741824)
    (hex : ∃ p ∈ patterns, strToLower p = strToLower name) :
    hosts.selectBestMatch patterns name = strToLower name := by
  unfold hosts.selectBestMatch
  refine selectBestGo_exact (strToLower name) (strToLower_idem name) ?_ patterns [] (-1)
    (by omega) (fun h => absurd h (by norm_num)) (Or.inl hex)
  rw [strToLower_length]
  exact_mod_cast hlen

/-- `selectBestMatch` returns the (lowered) unique matching wildcard when
no exact match is present. -/
theorem sbm_wild (patterns : List Str) (name q : Str)
    (hnx : ∀ p ∈ patterns, strToLower p ≠ strToLower name)
    (hq : q ∈ patterns)
    (hqc : hosts.wildcardCore (strToLower q) (strToLower name) = true) :
    hosts.selectBestMatch patterns name = strToLower q := by
  unfold hosts.selectBestMatch
  have hln : strToLower (strToLower name) = strToLower name := strToLower_idem name
  have hwne : strToLower q ≠ strToLower name := hnx q hq
  refine selectBestGo_wild (strToLower name) (strToLower q) hln hwne patterns [] (-1)
    hnx ?_ (Or.inl ⟨rfl, rfl, q, hq, hqc⟩)
  intro p hp hpc
  exact wildcardCore_unique _ _ (strToLower name)
    (shape_of_core_ne _ _ (hnx p hp) hpc) (shape_of_core_ne _ _ hwne hqc) hpc hqc

/-- `selectBestMatch` returns the empty string when nothing matches. -/
theorem sbm_none (patterns : List Str) (name : Str)
    (hno : ∀ p ∈ patterns, hosts.wildcardCore (strToLower p) (strToLower name) = false) :
    hosts.selectBestMatch patterns name = [] := by
  unfold hosts.selectBestMatch
  exact selectBestGo_no_match _ (strToLower_idem name) patterns [] (-1) hno

/-- C2: wildcard selection prefers an exact match over any wildcard and
otherwise returns the unique matching wildcard — any two wildcard-matching
patterns are (lowered-)equal, so the "longest pattern" rule and the
equal-length tie-break can never distinguish two distinct candidates — and
the selection is therefore deterministic: it is invariant under any
permutation (map iteration order) of the pattern set. The length bound
keeps every achievable wildcard score below the `1 << 30` exact-match
sentinel (DNS names are at most 255 octets). -/
theorem selectBestMatch_deterministic (patterns : List Str) (name : Str)
    (hlen : name.length + 1 < 1073741824) :
    (∀ p ∈ patterns, strToLower p = strToLower name →
      hosts.selectBestMatch patterns name = strToLower name)
    ∧ (∀ q ∈ patterns, hosts.wildcardMatch q name = true →
      (∀ p ∈ patterns, strToLower p ≠ strToLower name) →
      hosts.selectBestMatch patterns name = strToLower q)
    ∧ (∀ p q, p ∈ patterns → q ∈ patterns →
      hosts.wildcardMatch p name = true → hosts.wildcardMatch q name = true →
      strToLower p ≠ strToLower name → strToLower q ≠ strToLower name →
      strToLower p = strToLower q)
    ∧ (∀ patterns2, patterns.Perm patterns2 →
      hosts.selectBestMatch patterns name = hosts.selectBestMatch patterns2 name) := by
  refine ⟨?_, ?_, ?_, ?_⟩
  · intro p hp heq
    exact sbm_exact patterns name hlen ⟨p, hp, heq⟩
  · intro q hq hqm hnx
    unfold hosts.wildcardMatch at hqm
    exact sbm_wild patterns name q hnx hq hqm
  · intro p q hp hq hpm hqm hpne hqne
    unfold hosts.wildcardMatch at hpm hqm
    exact wildcardCore_unique _ _ _ (shape_of_core_ne _ _ hpne hpm)
      (shape_of_core_ne _ _ hqne hqm) hpm hqm
  · intro patterns2 hperm
    by_cases hex : ∃ p ∈ patterns, strToLower p = strToLower name
    · obtain ⟨p, hp, he⟩ := hex
      rw [sbm_exact patterns name hlen ⟨p, hp, he⟩,
        sbm_exact patterns2 name hlen ⟨p, hperm.subset hp, he⟩]
    · push_neg at hex
      have hex2 : ∀ p ∈ patterns2, strToLower p ≠ strToLower name :=
        fun p hp => hex p (hperm.symm.subset hp)
      by_cases hm : ∃ q ∈ patterns,
          hosts.wildcardCore (strToLower q) (strToLower name) = true
      · obtain ⟨q, hq, hqc⟩ := hm
        rw [sbm_wild patterns name q hex hq hqc,
          sbm_wild patterns2 name q hex2 (hperm.subset hq) hqc]
      · push_neg at hm
        have hno : ∀ p ∈ patterns,
            hosts.wildcardCore (strToLower p) (strToLower name) = false :=
          fun p hp => by simpa using hm p hp
        have hno2 : ∀ p ∈ patterns2,
            hosts.wildcardCore (strToLower p) (strToLower name) = false :=
          fun p hp => hno p (hperm.symm.subset hp)
        rw [sbm_none patterns name hno, sbm_none patterns2 name hno2]

/-- Witness for C2: for `foo.sub.example.com.` the selection from the
two-wildcard pattern set is independent of the order of the set. -/
theorem selectBestMatch_deterministic_witness :
    hosts.selectBestMatch [s2l "*.sub.example.com.", s2l "*.example.com."]
        (s2l "foo.sub.example.com.")
      = hosts.selectBestMatch [s2l "*.example.com.", s2l "*.sub.example.com."]
          (s2l "foo.sub.example.com.") :=
  (selectBestMatch_deterministic [s2l "*.sub.example.com.", s2l "*.example.com."]
      (s2l "foo.sub.example.com.") (by decide)).2.2.2
    [s2l "*.example.com.", s2l "*.sub.example.com."] (List.Perm.swap _ _ _)

/-- C8: a wildcard pattern `*s` (with `s` starting with a dot and carrying
the literal labels) matches a name exactly when the (lowered) name is a
dot-free leading segment followed by `s` — one additional leading label,
no deeper descent and no root match; concretely, `*.a.b.` matches
`x.a.b.` but matches neither `x.y.a.b.` nor `a.b.`. -/
theorem wildcardMatch_single_label (pattern name s : Str)
    (hp : strToLower pattern = '*' :: s) (hs : ∃ t, s = '.' :: t) :
    (hosts.wildcardMatch pattern name = true ↔
      ∃ lbl, strToLower name = lbl ++ s ∧ '.' ∉ lbl)
    ∧ hosts.wildcardMatch (s2l "*.a.b.") (s2l "x.a.b.") = true
    ∧ hosts.wildcardMatch (s2l "*.a.b.") (s2l "x.y.a.b.") = false
    ∧ hosts.wildcardMatch (s2l "*.a.b.") (s2l "a.b.") = false := by
  refine ⟨?_, by decide, by decide, by decide⟩
  obtain ⟨t, ht⟩ := hs
  unfold hosts.wildcardMatch
  rw [hp]
  have hdrop : ('*' :: s).drop 1 = s := by simp
  constructor
  · intro h
    rcases wildcardCore_elim _ _ h with heq | ⟨_, hsuf, hnd⟩
    · exact ⟨['*'], by rw [List.singleton_append, ← heq], by simp⟩
    · rw [hdrop] at hsuf hnd
      obtain ⟨lbl, hlbl⟩ := hsuf
      refine ⟨lbl, hlbl.symm, ?_⟩
      rw [← hlbl, take_compl_of_append] at hnd
      exact hnd
  · rintro ⟨lbl, hlbl, hnd⟩
    by_cases heq : '*' :: s = strToLower name
    · exact wildcardCore_of_eq _ _ heq
    · refine wildcardCore_of_suffix _ _ ⟨t, by simp [ht]⟩ ?_ ?_
      · rw [hdrop]
        exact ⟨lbl, hlbl.symm⟩
      · rw [hdrop, hlbl, take_compl_of_append]
        exact hnd

/-- Witness for C8 applying the characterisation at `*.a.b.` / `x.a.b.`
with the single leading label `x`. -/
theorem wildcardMatch_single_label_witness :
    hosts.wildcardMatch (s2l "*.a.b.") (s2l "x.a.b.") = true :=
  (wildcardMatch_single_label (s2l "*.a.b.") (s2l "x.a.b.") (s2l ".a.b.")
      (by decide) ⟨s2l "a.b.", by decide⟩).1.mpr
    ⟨s2l "x", by decide, by decide⟩

-- quick sanity checks against the repo's own wildcard_test.go table
example : hosts.wildcardMatch (s2l "*.example.com.") (s2l "foo.example.com.") = true := by decide
example : hosts.wildcardMatch (s2l "*.example.com.") (s2l "example.com.") = false := by decide
example : hosts.wildcardMatch (s2l "*.example.com.") (s2l "foo.bar.example.com.") = false := by
  decide
example : hosts.wildcardMatch (s2l "example.com.") (s2l "example.com.") = true := by decide
example :
    hosts.selectBestMatch [s2l "foo.example.com.", s2l "*.example.com."]
      (s2l "foo.example.com.") = s2l "foo.example.com." := by decide
example :
    hosts.selectBestMatch [s2l "*.sub.example.com.", s2l "*.example.com."]
      (s2l "foo.sub.example.com.") = s2l "*.sub.example.com." := by decide
